import Mathlib

/-!
Shallow embedding of the blocs atlas packer, translated from src/c/main.c
together with src/main.cpp and src/cpp/main.hpp.  Machine integers
are modelled as Int, byte buffers as functions from Int to Nat, and the
staging-buffer offset as Nat.  Two-complement overflow is not modelled.
The area pre-check compares against the exact rational 85/100 in place of
the C double constant 0.85.  The in-loop assertion of main.c line 238
never fires when the padding is nonnegative, because the pre-check of
lines 218-220 already bounds every padded dimension by the atlas size;
it is therefore not part of the model.
-/

namespace Blocs

/-- Rectangle of int32 fields, as blocs__rect in main.c. -/
structure Rect where
  x : Int
  y : Int
  w : Int
  h : Int
deriving DecidableEq, Repr

/-- Texture record, as blocs__texture: a rect plus the byte offset of the
pixels of the texture in the staging buffer.  The name index carries no packing
information and is omitted. -/
structure Texture where
  rect : Rect
  bufferIndex : Nat
deriving DecidableEq, Repr

/-- Point membership in the half-open pixel region of a rect. -/
def Rect.inside (r : Rect) (p : Int × Int) : Prop :=
  r.x ≤ p.1 ∧ p.1 < r.x + r.w ∧ r.y ≤ p.2 ∧ p.2 < r.y + r.h

instance (r : Rect) (p : Int × Int) : Decidable (r.inside p) :=
  inferInstanceAs (Decidable (_ ∧ _ ∧ _ ∧ _))

/-- Two rects overlap when their half-open pixel regions share a point. -/
def Rect.overlaps (a b : Rect) : Prop :=
  a.x < b.x + b.w ∧ b.x < a.x + a.w ∧ a.y < b.y + b.h ∧ b.y < a.y + a.h ∧
    0 < a.w ∧ 0 < a.h ∧ 0 < b.w ∧ 0 < b.h

instance (a b : Rect) : Decidable (a.overlaps b) :=
  inferInstanceAs (Decidable (_ ∧ _ ∧ _ ∧ _ ∧ _ ∧ _ ∧ _ ∧ _))

theorem Rect.overlaps_iff (a b : Rect) :
    a.overlaps b ↔ ∃ p, a.inside p ∧ b.inside p := by
  constructor
  · intro h
    refine ⟨⟨if a.x ≤ b.x then b.x else a.x, if a.y ≤ b.y then b.y else a.y⟩, ?_, ?_⟩ <;>
      simp only [Rect.inside, Rect.overlaps] at h ⊢ <;> split_ifs <;> omega
  · rintro ⟨p, hA, hB⟩
    simp only [Rect.inside] at hA hB
    simp only [Rect.overlaps]
    omega

theorem Rect.overlaps_symm {a b : Rect} (h : a.overlaps b) : b.overlaps a := by
  simp only [Rect.overlaps] at h ⊢
  omega

/-- Region containment between rects, stated pointwise. -/
def SubRect (a b : Rect) : Prop := ∀ p, a.inside p → b.inside p

theorem not_overlaps_of_subRect {a b c : Rect} (hsub : SubRect b c)
    (h : ¬ a.overlaps c) : ¬ a.overlaps b := by
  intro hab
  exact h ((Rect.overlaps_iff a c).2 (by
    rcases (Rect.overlaps_iff a b).1 hab with ⟨p, hpa, hpb⟩
    exact ⟨p, hpa, hsub p hpb⟩))

/-- Combined padding, as computed at main.c line 208. -/
def paddingOf (expand border : Int) : Int := expand * 2 + border

/-- Fit test of main.c line 250: a space is rejected when the padded
width or height exceeds it. -/
def fitsSpace (w h : Int) (s : Rect) : Bool :=
  !(decide (s.w < w) || decide (s.h < h))

/-- Backward scan of the free-space array, main.c lines 242-251: indices are
tried from the end of the list down to 0 and the first fitting space wins. -/
def findFitAux (spaces : List Rect) (w h : Int) : Nat → Option (Nat × Rect)
  | 0 => none
  | j + 1 =>
    if hj : j < spaces.length then
      if fitsSpace w h spaces[j] then some (j, spaces[j])
      else findFitAux spaces w h j
    else findFitAux spaces w h j

def findFit (spaces : List Rect) (w h : Int) : Option (Nat × Rect) :=
  findFitAux spaces w h spaces.length

/-- Swap-remove of main.c lines 270-272: the slot at j receives the last
element and the list shrinks by one.  When j is the last index the C code
skips the self-assignment; the resulting array contents are identical. -/
def swapRemove (spaces : List Rect) (j : Nat) : List Rect :=
  (spaces.set j (spaces.getD (spaces.length - 1) (Rect.mk 0 0 0 0))).dropLast

/-- Free-space update on placing a padded w by h box into space s at index j,
main.c lines 262-314: exact fit removes the space, one matching dimension
shrinks it in place, otherwise a new right fragment is pushed and the
original is shrunk to the strip below. -/
def placeOne (spaces : List Rect) (j : Nat) (s : Rect) (w h : Int) : List Rect :=
  if w = s.w ∧ h = s.h then
    swapRemove spaces j
  else if h = s.h then
    spaces.set j (Rect.mk (s.x + w) s.y (s.w - w) s.h)
  else if w = s.w then
    spaces.set j (Rect.mk s.x (s.y + h) s.w (s.h - h))
  else
    (spaces ++ [Rect.mk (s.x + w) s.y (s.w - w) h]).set j (Rect.mk s.x (s.y + h) s.w (s.h - h))

/-- Placement pass of main.c lines 233-318.  Each texture in order is
offered to findFit; on success its position becomes the space corner plus
expand and the space list is updated.  When no space fits, the inner loop of the C code simply ends: the texture keeps its original coordinates and is
reported with flag false. -/
def packLoop (padding expand : Int) : List Rect → List Texture → List (Texture × Bool) × List Rect
  | spaces, [] => ([], spaces)
  | spaces, t :: ts =>
    let w := t.rect.w + padding
    let h := t.rect.h + padding
    match findFit spaces w h with
    | none =>
      let r := packLoop padding expand spaces ts
      ((t, false) :: r.1, r.2)
    | some js =>
      let placed : Texture :=
        ⟨⟨js.2.x + expand, js.2.y + expand, t.rect.w, t.rect.h⟩, t.bufferIndex⟩
      let r := packLoop padding expand (placeOne spaces js.1 js.2 w h) ts
      ((placed, true) :: r.1, r.2)

/-- Comparator ordering of blocs__compare_area, main.c lines 159-164: a
sorts no later than b when the height of b does not exceed that of a. -/
def heightGe (a b : Texture) : Prop := b.rect.h ≤ a.rect.h

instance : DecidableRel heightGe :=
  fun a b => inferInstanceAs (Decidable (b.rect.h ≤ a.rect.h))

instance : IsTotal Texture heightGe := ⟨fun a b => le_total b.rect.h a.rect.h⟩

instance : IsTrans Texture heightGe := ⟨fun _ _ _ h1 h2 => le_trans h2 h1⟩

/-- Height-descending sort of main.c line 231.  qsort guarantees only a
comparator-sorted permutation; insertion sort is the executable
representative used by the model (see QsortResult for the contract). -/
def sortTextures (l : List Texture) : List Texture := List.insertionSort heightGe l

/-- Any result the C qsort call may produce: a permutation of the input
that is sorted for the blocs__compare_area ordering. -/
def QsortResult (l l' : List Texture) : Prop :=
  l'.Perm l ∧ l'.Pairwise heightGe

/-- Running maximum of padded widths, main.c lines 205-215. -/
def maxPaddedW (padding : Int) (ts : List Texture) : Int :=
  ts.foldl (fun m t => max m (t.rect.w + padding)) 0

/-- Running maximum of padded heights, main.c lines 205-215. -/
def maxPaddedH (padding : Int) (ts : List Texture) : Int :=
  ts.foldl (fun m t => max m (t.rect.h + padding)) 0

/-- Total padded area, main.c line 212. -/
def totalArea (padding : Int) (ts : List Texture) : Int :=
  ts.foldl (fun a t => a + (t.rect.w + padding) * (t.rect.h + padding)) 0

/-- Failure modes of the pre-checks, main.c lines 218-223.  The C code has
no failure path for a texture that fits no free space. -/
inductive PackError where
  | OversizedTexture
  | InsufficientSpace
deriving DecidableEq, Repr

/-- Initial free space covering the whole atlas, main.c lines 226-227. -/
def startSpace (size : Int) : Rect := ⟨0, 0, size, size⟩

/-- Entry point modelling blocs__pack_atlas: pre-checks, height sort, then
the placement pass.  Textures are returned in placement order, each with a
flag recording whether a free space was found for it. -/
def pack (textures : List Texture) (size expand border : Int) :
    Except PackError (List (Texture × Bool)) :=
  let padding := paddingOf expand border
  if maxPaddedW padding textures ≤ size ∧ maxPaddedH padding textures ≤ size then
    if totalArea padding textures * 100 ≤ size * size * 85 then
      .ok (packLoop padding expand [startSpace size] (sortTextures textures)).1
    else
      .error .InsufficientSpace
  else
    .error .OversizedTexture

theorem not_overlaps_comm {a b : Rect} (h : ¬ a.overlaps b) : ¬ b.overlaps a :=
  fun hba => h (Rect.overlaps_symm hba)

theorem not_overlaps_left {a b c : Rect} (hsub : SubRect b c)
    (h : ¬ c.overlaps a) : ¬ b.overlaps a :=
  not_overlaps_comm (not_overlaps_of_subRect hsub (not_overlaps_comm h))

theorem findFitAux_some {spaces : List Rect} {w h : Int} {j : Nat} {s : Rect} :
    ∀ m, findFitAux spaces w h m = some (j, s) →
      ∃ hj : j < spaces.length, spaces[j] = s ∧ w ≤ s.w ∧ h ≤ s.h := by
  intro m
  induction m with
  | zero => intro hm; simp [findFitAux] at hm
  | succ m ih =>
    intro hm
    rw [findFitAux] at hm
    by_cases hj : m < spaces.length
    · rw [dif_pos hj] at hm
      by_cases hf : fitsSpace w h spaces[m]
      · rw [if_pos hf] at hm
        simp only [Option.some.injEq, Prod.mk.injEq] at hm
        obtain ⟨rfl, rfl⟩ := hm
        simp only [fitsSpace, Bool.not_eq_true', Bool.or_eq_false_iff,
          decide_eq_false_iff_not, not_lt] at hf
        exact ⟨hj, rfl, hf.1, hf.2⟩
      · rw [if_neg hf] at hm; exact ih hm
    · rw [dif_neg hj] at hm; exact ih hm

theorem findFit_some {spaces : List Rect} {w h : Int} {j : Nat} {s : Rect}
    (hm : findFit spaces w h = some (j, s)) :
    ∃ hj : j < spaces.length, spaces[j] = s ∧ w ≤ s.w ∧ h ≤ s.h :=
  findFitAux_some spaces.length hm

theorem length_swapRemove {spaces : List Rect} {j : Nat} :
    (swapRemove spaces j).length = spaces.length - 1 := by
  simp [swapRemove]

theorem getElem_swapRemove {spaces : List Rect} {j : Nat} (hj : j < spaces.length)
    {i : Nat} (hi : i < (swapRemove spaces j).length) (hi2 : i < spaces.length) :
    (swapRemove spaces j)[i] =
      if j = i then spaces[spaces.length - 1] else spaces[i] := by
  have hi2 : i < spaces.length - 1 := by rw [length_swapRemove] at hi; omega
  simp only [swapRemove] at hi ⊢
  rw [List.getElem_dropLast, List.getElem_set]
  by_cases hji : j = i
  · rw [if_pos hji, if_pos hji, List.getD_eq_getElem spaces _ (by omega)]
  · rw [if_neg hji, if_neg hji]

theorem mem_swapRemove {spaces : List Rect} {j : Nat} (hj : j < spaces.length)
    {a : Rect} (ha : a ∈ swapRemove spaces j) :
    ∃ idx, ∃ hidx : idx < spaces.length, idx ≠ j ∧ a = spaces[idx] := by
  rcases List.mem_iff_getElem.1 ha with ⟨i, hi, heq⟩
  rw [getElem_swapRemove hj hi (by rw [length_swapRemove] at hi; omega)] at heq
  have hi2 : i < spaces.length - 1 := by rw [length_swapRemove] at hi; omega
  by_cases hji : j = i
  · rw [if_pos hji] at heq
    exact ⟨spaces.length - 1, by omega, by omega, heq.symm⟩
  · rw [if_neg hji] at heq
    exact ⟨i, by omega, fun hc => hji hc.symm, heq.symm⟩

/-- Invariant carried through the placement pass: free spaces are mutually
disjoint, free spaces are disjoint from all consumed footprints, and the
consumed footprints are mutually disjoint. -/
structure PackInv (spaces fps : List Rect) : Prop where
  spSp : spaces.Pairwise fun a b => ¬ a.overlaps b
  spFp : ∀ s ∈ spaces, ∀ f ∈ fps, ¬ s.overlaps f
  fpFp : fps.Pairwise fun a b => ¬ a.overlaps b

theorem fps_append_pairwise {spaces fps : List Rect} {s F : Rect}
    (inv : PackInv spaces fps) (hs : s ∈ spaces) (hsubF : SubRect F s) :
    (fps ++ [F]).Pairwise fun a b => ¬ a.overlaps b := by
  rw [List.pairwise_append]
  refine ⟨inv.fpFp, List.pairwise_singleton _ _, ?_⟩
  intro f hf b hb
  rw [List.mem_singleton] at hb
  subst hb
  exact not_overlaps_comm (not_overlaps_left hsubF (inv.spFp s hs f hf))

theorem mem_append_singleton {fps : List Rect} {F f : Rect} (hf : f ∈ fps ++ [F]) :
    f ∈ fps ∨ f = F := by
  rcases List.mem_append.1 hf with hf | hf
  · exact Or.inl hf
  · exact Or.inr (List.mem_singleton.1 hf)

theorem packInv_swapRemove {spaces fps : List Rect} {j : Nat} {s F : Rect}
    (inv : PackInv spaces fps) (hj : j < spaces.length) (hjs : spaces[j] = s)
    (hsubF : SubRect F s) :
    PackInv (swapRemove spaces j) (fps ++ [F]) := by
  have hpw := List.pairwise_iff_getElem.1 inv.spSp
  refine ⟨?_, ?_, fps_append_pairwise inv (hjs ▸ List.getElem_mem hj) hsubF⟩
  · rw [List.pairwise_iff_getElem]
    intro i k hi hk hik
    have hi2 : i < spaces.length - 1 := by rw [length_swapRemove] at hi; omega
    have hk2 : k < spaces.length - 1 := by rw [length_swapRemove] at hk; omega
    rw [getElem_swapRemove hj hi (by omega), getElem_swapRemove hj hk (by omega)]
    by_cases hji : j = i
    · rw [if_pos hji, if_neg (by omega)]
      exact not_overlaps_comm (hpw k (spaces.length - 1) (by omega) (by omega) (by omega))
    · rw [if_neg hji]
      by_cases hjk : j = k
      · rw [if_pos hjk]
        exact hpw i (spaces.length - 1) (by omega) (by omega) (by omega)
      · rw [if_neg hjk]
        exact hpw i k (by omega) (by omega) hik
  · intro a ha f hf
    rcases mem_swapRemove hj ha with ⟨idx, hidx, hne, rfl⟩
    rcases mem_append_singleton hf with hf | rfl
    · exact inv.spFp _ (List.getElem_mem hidx) f hf
    · have hov : ¬ spaces[idx].overlaps s := by
        rcases Nat.lt_or_ge idx j with hlt | hge
        · exact hjs ▸ hpw idx j hidx hj hlt
        · exact hjs ▸ not_overlaps_comm (hpw j idx hj hidx (by omega))
      exact not_overlaps_of_subRect hsubF hov

theorem packInv_set {spaces fps : List Rect} {j : Nat} {s r2 F : Rect}
    (inv : PackInv spaces fps) (hj : j < spaces.length) (hjs : spaces[j] = s)
    (hsubF : SubRect F s) (hsubr : SubRect r2 s) (hrF : ¬ r2.overlaps F) :
    PackInv (spaces.set j r2) (fps ++ [F]) := by
  have hpw := List.pairwise_iff_getElem.1 inv.spSp
  refine ⟨?_, ?_, fps_append_pairwise inv (hjs ▸ List.getElem_mem hj) hsubF⟩
  · rw [List.pairwise_iff_getElem]
    intro i k hi hk hik
    rw [List.length_set] at hi hk
    rw [List.getElem_set, List.getElem_set]
    by_cases hji : j = i
    · rw [if_pos hji, if_neg (by omega)]
      have : ¬ spaces[k].overlaps s := hjs ▸ not_overlaps_comm (hpw j k hj hk (by omega))
      exact not_overlaps_comm (not_overlaps_of_subRect hsubr this)
    · rw [if_neg hji]
      by_cases hjk : j = k
      · rw [if_pos hjk]
        have : ¬ spaces[i].overlaps s := hjs ▸ hpw i j hi hj (by omega)
        exact not_overlaps_of_subRect hsubr this
      · rw [if_neg hjk]
        exact hpw i k hi hk hik
  · intro a ha f hf
    rcases List.mem_iff_getElem.1 ha with ⟨i, hi, heq⟩
    rw [List.length_set] at hi
    rw [List.getElem_set] at heq
    rcases mem_append_singleton hf with hf | rfl
    · by_cases hji : j = i
      · rw [if_pos hji] at heq
        subst heq
        exact not_overlaps_left hsubr (inv.spFp s (hjs ▸ List.getElem_mem hj) f hf)
      · rw [if_neg hji] at heq
        subst heq
        exact inv.spFp _ (List.getElem_mem hi) f hf
    · by_cases hji : j = i
      · rw [if_pos hji] at heq
        subst heq
        exact hrF
      · rw [if_neg hji] at heq
        subst heq
        have : ¬ spaces[i].overlaps s := by
          rcases Nat.lt_or_ge i j with hlt | hge
          · exact hjs ▸ hpw i j hi hj hlt
          · exact hjs ▸ not_overlaps_comm (hpw j i hj hi (by omega))
        exact not_overlaps_of_subRect hsubF this

theorem packInv_split {spaces fps : List Rect} {j : Nat} {s g b F : Rect}
    (inv : PackInv spaces fps) (hj : j < spaces.length) (hjs : spaces[j] = s)
    (hsubF : SubRect F s) (hsubg : SubRect g s) (hsubb : SubRect b s)
    (hgF : ¬ g.overlaps F) (hbF : ¬ b.overlaps F) (hbg : ¬ b.overlaps g) :
    PackInv ((spaces ++ [g]).set j b) (fps ++ [F]) := by
  have hpw := List.pairwise_iff_getElem.1 inv.spSp
  have hgetap : ∀ i (hi : i < (spaces ++ [g]).length), (spaces ++ [g])[i] =
      if hlt : i < spaces.length then spaces[i] else g := by
    intro i hi
    by_cases hlt : i < spaces.length
    · rw [dif_pos hlt, List.getElem_append_left hlt]
    · rw [dif_neg hlt]
      rw [List.length_append, List.length_singleton] at hi
      rw [List.getElem_append_right (by omega)]
      simp
  have hnotov : ∀ i (hi : i < spaces.length), i ≠ j → ¬ spaces[i].overlaps s := by
    intro i hi hne
    rcases Nat.lt_or_ge i j with hlt | hge
    · exact hjs ▸ hpw i j hi hj hlt
    · exact hjs ▸ not_overlaps_comm (hpw j i hj hi (by omega))
  refine ⟨?_, ?_, fps_append_pairwise inv (hjs ▸ List.getElem_mem hj) hsubF⟩
  · rw [List.pairwise_iff_getElem]
    intro i k hi hk hik
    rw [List.length_set, List.length_append, List.length_singleton] at hi hk
    rw [List.getElem_set, List.getElem_set, hgetap i (by simp; omega), hgetap k (by simp; omega)]
    by_cases hji : j = i
    · rw [if_pos hji, if_neg (by omega)]
      by_cases hkl : k < spaces.length
      · rw [dif_pos hkl]
        exact not_overlaps_comm (not_overlaps_of_subRect hsubb (hnotov k hkl (by omega)))
      · rw [dif_neg hkl]
        exact hbg
    · rw [if_neg hji]
      have hil : i < spaces.length := by
        by_contra hc
        have : i = spaces.length := by omega
        omega
      rw [dif_pos hil]
      by_cases hjk : j = k
      · rw [if_pos hjk]
        exact not_overlaps_of_subRect hsubb (hnotov i hil (by omega))
      · rw [if_neg hjk]
        by_cases hkl : k < spaces.length
        · rw [dif_pos hkl]
          exact hpw i k hil hkl hik
        · rw [dif_neg hkl]
          exact not_overlaps_of_subRect hsubg (hnotov i hil (by omega))
  · intro a ha f hf
    rcases List.mem_iff_getElem.1 ha with ⟨i, hi, heq⟩
    rw [List.length_set, List.length_append, List.length_singleton] at hi
    rw [List.getElem_set, hgetap i (by simp; omega)] at heq
    have hcases : a = b ∨ a = g ∨ ∃ idx, ∃ hidx : idx < spaces.length, idx ≠ j ∧ a = spaces[idx] := by
      by_cases hji : j = i
      · rw [if_pos hji] at heq; exact Or.inl heq.symm
      · rw [if_neg hji] at heq
        by_cases hil : i < spaces.length
        · rw [dif_pos hil] at heq
          exact Or.inr (Or.inr ⟨i, hil, fun hc => hji hc.symm, heq.symm⟩)
        · rw [dif_neg hil] at heq
          exact Or.inr (Or.inl heq.symm)
    have hsmem : s ∈ spaces := hjs ▸ List.getElem_mem hj
    rcases mem_append_singleton hf with hf | rfl
    · rcases hcases with rfl | rfl | ⟨idx, hidx, hne, rfl⟩
      · exact not_overlaps_left hsubb (inv.spFp s hsmem f hf)
      · exact not_overlaps_left hsubg (inv.spFp s hsmem f hf)
      · exact inv.spFp _ (List.getElem_mem hidx) f hf
    · rcases hcases with rfl | rfl | ⟨idx, hidx, hne, rfl⟩
      · exact hbF
      · exact hgF
      · exact not_overlaps_of_subRect hsubF (hnotov idx hidx hne)


theorem subRect_footprint {s : Rect} {w h : Int} (hw : w ≤ s.w) (hh : h ≤ s.h) :
    SubRect (Rect.mk s.x s.y w h) s := by
  intro p hp
  simp only [Rect.inside] at hp ⊢
  omega

theorem subRect_rightFull {s : Rect} {w : Int} (hw0 : 0 ≤ w) :
    SubRect (Rect.mk (s.x + w) s.y (s.w - w) s.h) s := by
  intro p hp
  simp only [Rect.inside] at hp ⊢
  omega

theorem subRect_bottom {s : Rect} {h : Int} (hh0 : 0 ≤ h) :
    SubRect (Rect.mk s.x (s.y + h) s.w (s.h - h)) s := by
  intro p hp
  simp only [Rect.inside] at hp ⊢
  omega

theorem subRect_rightSmall {s : Rect} {w h : Int} (hw0 : 0 ≤ w) (hh : h ≤ s.h) :
    SubRect (Rect.mk (s.x + w) s.y (s.w - w) h) s := by
  intro p hp
  simp only [Rect.inside] at hp ⊢
  omega

theorem rightFull_not_overlaps_footprint {s : Rect} {w h : Int} :
    ¬ (Rect.mk (s.x + w) s.y (s.w - w) s.h).overlaps (Rect.mk s.x s.y w h) := by
  simp only [Rect.overlaps]
  omega

theorem bottom_not_overlaps_footprint {s : Rect} {w h : Int} :
    ¬ (Rect.mk s.x (s.y + h) s.w (s.h - h)).overlaps (Rect.mk s.x s.y w h) := by
  simp only [Rect.overlaps]
  omega

theorem rightSmall_not_overlaps_footprint {s : Rect} {w h : Int} :
    ¬ (Rect.mk (s.x + w) s.y (s.w - w) h).overlaps (Rect.mk s.x s.y w h) := by
  simp only [Rect.overlaps]
  omega

theorem bottom_not_overlaps_rightSmall {s : Rect} {w h : Int} :
    ¬ (Rect.mk s.x (s.y + h) s.w (s.h - h)).overlaps (Rect.mk (s.x + w) s.y (s.w - w) h) := by
  simp only [Rect.overlaps]
  omega

theorem packInv_placeOne {spaces fps : List Rect} {j : Nat} {s : Rect} {w h : Int}
    (inv : PackInv spaces fps) (hj : j < spaces.length) (hjs : spaces[j] = s)
    (hw0 : 0 ≤ w) (hh0 : 0 ≤ h) (hw : w ≤ s.w) (hh : h ≤ s.h) :
    PackInv (placeOne spaces j s w h) (fps ++ [Rect.mk s.x s.y w h]) := by
  have hsubF := subRect_footprint hw hh
  rw [placeOne]
  by_cases hex : w = s.w ∧ h = s.h
  · rw [if_pos hex]
    exact packInv_swapRemove inv hj hjs hsubF
  · rw [if_neg hex]
    by_cases hhs : h = s.h
    · rw [if_pos hhs]
      exact packInv_set inv hj hjs hsubF (subRect_rightFull hw0) rightFull_not_overlaps_footprint
    · rw [if_neg hhs]
      by_cases hws : w = s.w
      · rw [if_pos hws]
        exact packInv_set inv hj hjs hsubF (subRect_bottom hh0) bottom_not_overlaps_footprint
      · rw [if_neg hws]
        exact packInv_split inv hj hjs hsubF (subRect_rightSmall hw0 hh) (subRect_bottom hh0)
          rightSmall_not_overlaps_footprint bottom_not_overlaps_footprint
          bottom_not_overlaps_rightSmall

/-- Padded footprint of a placed texture: the consumed free-space corner is
at rect.x minus expand, rect.y minus expand, and the padded box spans the
texture plus the full padding. -/
def footprint (padding expand : Int) (t : Texture) : Rect :=
  Rect.mk (t.rect.x - expand) (t.rect.y - expand) (t.rect.w + padding) (t.rect.h + padding)

/-- Footprints of the textures a pack run actually placed. -/
def placedFootprints (padding expand : Int) (out : List (Texture × Bool)) : List Rect :=
  (out.filter fun q => q.2).map fun q => footprint padding expand q.1

theorem placedFootprints_cons_true (padding expand : Int) (t : Texture)
    (out : List (Texture × Bool)) :
    placedFootprints padding expand ((t, true) :: out) =
      footprint padding expand t :: placedFootprints padding expand out := by
  simp [placedFootprints]

theorem placedFootprints_cons_false (padding expand : Int) (t : Texture)
    (out : List (Texture × Bool)) :
    placedFootprints padding expand ((t, false) :: out) =
      placedFootprints padding expand out := by
  simp [placedFootprints]

theorem packLoop_inv {padding expand : Int} :
    ∀ {ts : List Texture} {spaces fps : List Rect},
      (∀ t ∈ ts, 0 ≤ t.rect.w + padding ∧ 0 ≤ t.rect.h + padding) →
      PackInv spaces fps →
      PackInv (packLoop padding expand spaces ts).2
        (fps ++ placedFootprints padding expand (packLoop padding expand spaces ts).1) := by
  intro ts
  induction ts with
  | nil =>
    intro spaces fps hdim inv
    simpa [packLoop, placedFootprints] using inv
  | cons t ts ih =>
    intro spaces fps hdim inv
    have hdim2 := fun u hu => hdim u (List.mem_cons_of_mem t hu)
    rw [packLoop]
    cases hff : findFit spaces (t.rect.w + padding) (t.rect.h + padding) with
    | none =>
      simp only []
      rw [placedFootprints_cons_false]
      exact ih hdim2 inv
    | some js =>
      rcases findFit_some hff with ⟨hj, hjs, hwfit, hhfit⟩
      have hstep := packInv_placeOne inv hj hjs (hdim t (List.mem_cons_self t ts)).1
        (hdim t (List.mem_cons_self t ts)).2 hwfit hhfit
      have hrec := ih hdim2 hstep
      simp only []
      rw [placedFootprints_cons_true]
      have harith : footprint padding expand
          (Texture.mk (Rect.mk (js.2.x + expand) (js.2.y + expand) t.rect.w t.rect.h)
            t.bufferIndex) =
          Rect.mk js.2.x js.2.y (t.rect.w + padding) (t.rect.h + padding) := by
        simp only [footprint]
        congr 1 <;> omega
      rw [harith, List.append_cons]
      exact hrec

instance exceptDecEq {e a : Type} [DecidableEq e] [DecidableEq a] :
    DecidableEq (Except e a) := fun x y =>
  match x, y with
  | .ok u, .ok v =>
    if h : u = v then .isTrue (by rw [h]) else .isFalse (fun hc => h (by injection hc))
  | .error u, .error v =>
    if h : u = v then .isTrue (by rw [h]) else .isFalse (fun hc => h (by injection hc))
  | .ok _, .error _ => .isFalse (fun hc => Except.noConfusion hc)
  | .error _, .ok _ => .isFalse (fun hc => Except.noConfusion hc)

/-- C1: after a successful pack with nonnegative parameters and texture
dimensions, the padded footprints of the textures that consumed a free
space are pairwise non-overlapping. -/
theorem c1_no_overlap {textures : List Texture} {size expand border : Int}
    {out : List (Texture × Bool)}
    (he : 0 ≤ expand) (hb : 0 ≤ border)
    (hdims : ∀ t ∈ textures, 0 ≤ t.rect.w ∧ 0 ≤ t.rect.h)
    (hok : pack textures size expand border = .ok out) :
    (placedFootprints (paddingOf expand border) expand out).Pairwise
      fun a b => ¬ a.overlaps b := by
  rw [pack] at hok
  split_ifs at hok with h1 h2
  · simp only [Except.ok.injEq] at hok
    subst hok
    have inv0 : PackInv [startSpace size] [] :=
      ⟨List.pairwise_singleton _ _, by simp, List.Pairwise.nil⟩
    have hdim : ∀ t ∈ sortTextures textures,
        0 ≤ t.rect.w + paddingOf expand border ∧ 0 ≤ t.rect.h + paddingOf expand border := by
      intro t ht
      have := hdims t ((List.perm_insertionSort heightGe textures).mem_iff.1 ht)
      simp only [paddingOf]
      omega
    have hinv := @packLoop_inv (paddingOf expand border) expand (sortTextures textures)
      [startSpace size] [] hdim inv0
    simpa using hinv.fpFp

theorem c1_no_overlap_witness :
    pack [⟨⟨0,0,8,16⟩,0⟩, ⟨⟨0,0,16,8⟩,1⟩, ⟨⟨0,0,8,8⟩,2⟩] 32 0 0 =
      .ok [(⟨⟨0,0,8,16⟩,0⟩, true), (⟨⟨8,0,16,8⟩,1⟩, true), (⟨⟨24,0,8,8⟩,2⟩, true)] ∧
    (placedFootprints (paddingOf 0 0) 0
        [(⟨⟨0,0,8,16⟩,0⟩, true), (⟨⟨8,0,16,8⟩,1⟩, true), (⟨⟨24,0,8,8⟩,2⟩, true)]).Pairwise
      fun a b => ¬ a.overlaps b :=
  ⟨by decide, @c1_no_overlap [⟨⟨0,0,8,16⟩,0⟩, ⟨⟨0,0,16,8⟩,1⟩, ⟨⟨0,0,8,8⟩,2⟩] 32 0 0
    [(⟨⟨0,0,8,16⟩,0⟩, true), (⟨⟨8,0,16,8⟩,1⟩, true), (⟨⟨24,0,8,8⟩,2⟩, true)]
    (by decide) (by decide) (by decide) (by decide)⟩

/-- All free spaces lie inside the size by size atlas square. -/
def SpacesBounded (size : Int) (spaces : List Rect) : Prop :=
  ∀ s ∈ spaces, 0 ≤ s.x ∧ 0 ≤ s.y ∧ s.x + s.w ≤ size ∧ s.y + s.h ≤ size

theorem mem_placeOne {spaces : List Rect} {j : Nat} {s : Rect} {w h : Int}
    (hj : j < spaces.length) {a : Rect} (ha : a ∈ placeOne spaces j s w h) :
    a ∈ spaces ∨ a = Rect.mk (s.x + w) s.y (s.w - w) s.h ∨
      a = Rect.mk s.x (s.y + h) s.w (s.h - h) ∨
      a = Rect.mk (s.x + w) s.y (s.w - w) h := by
  rw [placeOne] at ha
  split_ifs at ha
  · rcases mem_swapRemove hj ha with ⟨idx, hidx, _, rfl⟩
    exact Or.inl (List.getElem_mem hidx)
  · rcases List.mem_or_eq_of_mem_set ha with ha | rfl
    · exact Or.inl ha
    · exact Or.inr (Or.inl rfl)
  · rcases List.mem_or_eq_of_mem_set ha with ha | rfl
    · exact Or.inl ha
    · exact Or.inr (Or.inr (Or.inl rfl))
  · rcases List.mem_or_eq_of_mem_set ha with ha | rfl
    · rcases List.mem_append.1 ha with ha | ha
      · exact Or.inl ha
      · exact Or.inr (Or.inr (Or.inr (List.mem_singleton.1 ha)))
    · exact Or.inr (Or.inr (Or.inl rfl))

theorem spacesBounded_placeOne {size : Int} {spaces : List Rect} {j : Nat} {s : Rect}
    {w h : Int} (hsb : SpacesBounded size spaces) (hj : j < spaces.length)
    (hjs : spaces[j] = s) (hw0 : 0 ≤ w) (hh0 : 0 ≤ h) (hw : w ≤ s.w) (hh : h ≤ s.h) :
    SpacesBounded size (placeOne spaces j s w h) := by
  intro a ha
  have hs := hsb s (hjs ▸ List.getElem_mem hj)
  rcases mem_placeOne hj ha with ha | rfl | rfl | rfl
  · exact hsb a ha
  all_goals (simp only []; omega)

theorem packLoop_bounds {padding expand size : Int} :
    ∀ {ts : List Texture} {spaces : List Rect},
      SpacesBounded size spaces →
      (∀ t ∈ ts, 0 ≤ t.rect.w + padding ∧ 0 ≤ t.rect.h + padding) →
      ∀ q ∈ (packLoop padding expand spaces ts).1, q.2 = true →
        0 ≤ q.1.rect.x - expand ∧ 0 ≤ q.1.rect.y - expand ∧
        q.1.rect.x - expand + (q.1.rect.w + padding) ≤ size ∧
        q.1.rect.y - expand + (q.1.rect.h + padding) ≤ size := by
  intro ts
  induction ts with
  | nil =>
    intro spaces _ _ q hq _
    simp [packLoop] at hq
  | cons t ts ih =>
    intro spaces hsb hdim q hq hflag
    have hdim2 := fun u hu => hdim u (List.mem_cons_of_mem t hu)
    rw [packLoop] at hq
    cases hff : findFit spaces (t.rect.w + padding) (t.rect.h + padding) with
    | none =>
      rw [hff] at hq
      simp only [] at hq
      rcases List.mem_cons.1 hq with rfl | hq
      · exact absurd hflag (by simp)
      · exact ih hsb hdim2 q hq hflag
    | some js =>
      rw [hff] at hq
      simp only [] at hq
      rcases findFit_some hff with ⟨hj, hjs, hwfit, hhfit⟩
      have hs := hsb js.2 (hjs ▸ List.getElem_mem hj)
      have ht := hdim t (List.mem_cons_self t ts)
      rcases List.mem_cons.1 hq with rfl | hq
      · simp only []
        constructor
        · omega
        constructor
        · omega
        constructor
        · omega
        · omega
      · exact ih (spacesBounded_placeOne hsb hj hjs ht.1 ht.2 hwfit hhfit) hdim2 q hq hflag

/-- C2 counterexample: with expand 2 and border 0 a 16 by 8 texture packed
into a 20 atlas is placed at 2,2 and violates the claimed bound
rect.x plus rect.w plus padding at most size, since 2 plus 16 plus 4
exceeds 20. -/
theorem c2_counterexample :
    pack [⟨⟨0,0,16,8⟩,0⟩] 20 2 0 = .ok [(⟨⟨2,2,16,8⟩,0⟩, true)] ∧
    ¬ (2 + 16 + paddingOf 2 0 ≤ (20:Int)) := by
  constructor <;> decide

/-- C2 amended: placed textures satisfy x and y nonnegative and
x plus w plus expand plus border at most size, equivalently the padded
footprint anchored at x minus expand lies inside the atlas; the claimed
bound with the full padding 2 expand plus border holds only for expand 0. -/
theorem c2_containment_amended {textures : List Texture} {size expand border : Int}
    {out : List (Texture × Bool)}
    (he : 0 ≤ expand) (hb : 0 ≤ border)
    (hdims : ∀ t ∈ textures, 0 ≤ t.rect.w ∧ 0 ≤ t.rect.h)
    (hok : pack textures size expand border = .ok out) :
    ∀ q ∈ out, q.2 = true →
      0 ≤ q.1.rect.x ∧ 0 ≤ q.1.rect.y ∧
      q.1.rect.x + q.1.rect.w + expand + border ≤ size ∧
      q.1.rect.y + q.1.rect.h + expand + border ≤ size := by
  rw [pack] at hok
  split_ifs at hok with h1 h2
  · simp only [Except.ok.injEq] at hok
    subst hok
    have hsb0 : SpacesBounded size [startSpace size] := by
      intro a ha
      rcases List.mem_singleton.1 ha with rfl
      simp [startSpace]
    have hdim : ∀ t ∈ sortTextures textures,
        0 ≤ t.rect.w + paddingOf expand border ∧ 0 ≤ t.rect.h + paddingOf expand border := by
      intro t ht
      have := hdims t ((List.perm_insertionSort heightGe textures).mem_iff.1 ht)
      simp only [paddingOf]
      omega
    intro q hq hflag
    have := packLoop_bounds hsb0 hdim q hq hflag
    simp only [paddingOf] at this
    omega

theorem c2_containment_amended_witness :
    pack [⟨⟨0,0,16,8⟩,0⟩] 20 2 0 = .ok [(⟨⟨2,2,16,8⟩,0⟩, true)] ∧
    (0 ≤ (2:Int) ∧ 0 ≤ (2:Int) ∧ 2 + 16 + 2 + 0 ≤ (20:Int) ∧ 2 + 8 + 2 + 0 ≤ (20:Int)) :=
  ⟨by decide, @c2_containment_amended [⟨⟨0,0,16,8⟩,0⟩] 20 2 0 [(⟨⟨2,2,16,8⟩,0⟩, true)]
    (by decide) (by decide) (by decide) (by decide) (⟨⟨2,2,16,8⟩,0⟩, true) (by decide) rfl⟩

/-- C3: the code has no NoFitFound failure path.  On this input the
pre-checks pass, the 4 by 4 texture fits no remaining free space, yet pack
completes returning ok; the unfitted texture keeps its initial origin
coordinates (flag false) and its footprint overlaps the placed 7 by 7
texture. -/
theorem c3_code_divergence :
    pack [⟨⟨0,0,7,7⟩,0⟩, ⟨⟨0,0,4,4⟩,1⟩] 10 0 0 =
      .ok [(⟨⟨0,0,7,7⟩,0⟩, true), (⟨⟨0,0,4,4⟩,1⟩, false)] ∧
    (footprint (paddingOf 0 0) 0 ⟨⟨0,0,7,7⟩,0⟩).overlaps
      (footprint (paddingOf 0 0) 0 ⟨⟨0,0,4,4⟩,1⟩) := by
  constructor <;> decide

theorem set_append_of_lt {l l2 : List Rect} :
    ∀ {j : Nat}, j < l.length → ∀ a, (l ++ l2).set j a = l.set j a ++ l2 := by
  induction l with
  | nil => intro j hj; simp at hj
  | cons x xs ih =>
    intro j hj a
    cases j with
    | zero => rfl
    | succ j =>
      simp only [List.cons_append, List.set_cons_succ]
      rw [ih (by simpa using hj) a]

/-- C7: when both padded dimensions are strictly smaller than the chosen
space, the update pushes the new right fragment at the end of the list and
shrinks the consumed space in place to the strip below, growing the list
by exactly one. -/
theorem c7_split_spaces {spaces : List Rect} {j : Nat} {s : Rect} {w h : Int}
    (hj : j < spaces.length) (hjs : spaces[j] = s) (hw : w < s.w) (hh : h < s.h) :
    placeOne spaces j s w h =
      spaces.set j (Rect.mk s.x (s.y + h) s.w (s.h - h)) ++
        [Rect.mk (s.x + w) s.y (s.w - w) h] ∧
    (placeOne spaces j s w h).length = spaces.length + 1 := by
  rw [placeOne, if_neg (by rintro ⟨hc, _⟩; omega), if_neg (by omega), if_neg (by omega)]
  constructor
  · exact set_append_of_lt hj _
  · simp

theorem c7_split_spaces_witness :
    (4:Int) < (startSpace 10).w ∧ (3:Int) < (startSpace 10).h ∧
    placeOne [startSpace 10] 0 (startSpace 10) 4 3 =
      [startSpace 10].set 0 (Rect.mk 0 3 10 7) ++ [Rect.mk 4 0 6 3] ∧
    (placeOne [startSpace 10] 0 (startSpace 10) 4 3).length = 1 + 1 :=
  ⟨by decide, by decide,
    (@c7_split_spaces [startSpace 10] 0 (startSpace 10) 4 3
      (by decide) rfl (by decide) (by decide)).1,
    (@c7_split_spaces [startSpace 10] 0 (startSpace 10) 4 3
      (by decide) rfl (by decide) (by decide)).2⟩

theorem length_placeOne_le {spaces : List Rect} {j : Nat} {s : Rect} {w h : Int} :
    (placeOne spaces j s w h).length ≤ spaces.length + 1 := by
  rw [placeOne]
  split_ifs
  · simp only [swapRemove, List.length_dropLast, List.length_set]
    omega
  · simp
  · simp
  · simp

/-- C10 amended: each placement step grows the free-space list by at most
one, so a run over ts starting from any space list ends with at most
initial count plus length of ts spaces; from the initial single space this
is n plus 1, not n. -/
theorem c10_spaces_bound_amended {padding expand : Int} :
    ∀ {ts : List Texture} {spaces : List Rect},
      (packLoop padding expand spaces ts).2.length ≤ spaces.length + ts.length := by
  intro ts
  induction ts with
  | nil => intro spaces; simp [packLoop]
  | cons t ts ih =>
    intro spaces
    rw [packLoop]
    cases hff : findFit spaces (t.rect.w + padding) (t.rect.h + padding) with
    | none =>
      simp only [List.length_cons]
      calc (packLoop padding expand spaces ts).2.length
          ≤ spaces.length + ts.length := ih
        _ ≤ spaces.length + (ts.length + 1) := by omega
    | some js =>
      simp only [List.length_cons]
      calc (packLoop padding expand
              (placeOne spaces js.1 js.2 (t.rect.w + padding) (t.rect.h + padding)) ts).2.length
          ≤ (placeOne spaces js.1 js.2 (t.rect.w + padding) (t.rect.h + padding)).length
              + ts.length := ih
        _ ≤ spaces.length + 1 + ts.length := by
            have := @length_placeOne_le spaces js.1 js.2
              (t.rect.w + padding) (t.rect.h + padding)
            omega
        _ = spaces.length + (ts.length + 1) := by omega

/-- C10 counterexample: a successful two-texture run whose final free-space
list holds three rects, exceeding the claimed bound n equal 2; the C
implementation writes this third rect at index 2 of a stack array of 2
slots. -/
theorem c10_counterexample :
    pack [⟨⟨0,0,10,20⟩,0⟩, ⟨⟨0,0,10,10⟩,1⟩] 100 0 0 =
      .ok [(⟨⟨0,0,10,20⟩,0⟩, true), (⟨⟨10,0,10,10⟩,1⟩, true)] ∧
    (packLoop (paddingOf 0 0) 0 [startSpace 100]
        (sortTextures [⟨⟨0,0,10,20⟩,0⟩, ⟨⟨0,0,10,10⟩,1⟩])).2.length = 3 ∧
    ¬ (3 ≤ 2) := by
  refine ⟨by decide, by decide, by decide⟩

/-- Packing-relevant content of a texture: width, height and buffer offset;
the coordinates are the only fields the placement pass mutates. -/
def stripTex (t : Texture) : Int × Int × Nat := (t.rect.w, t.rect.h, t.bufferIndex)

theorem packLoop_strip {padding expand : Int} :
    ∀ {ts : List Texture} {spaces : List Rect},
      (packLoop padding expand spaces ts).1.map (fun q => stripTex q.1) =
        ts.map stripTex := by
  intro ts
  induction ts with
  | nil => intro spaces; simp [packLoop]
  | cons t ts ih =>
    intro spaces
    rw [packLoop]
    cases findFit spaces (t.rect.w + padding) (t.rect.h + padding) with
    | none => simp only [List.map_cons]; rw [ih]
    | some js => simp only [List.map_cons]; rw [ih]; rfl

/-- C5 counterexample: two textures of equal height 5.  The swapped order
satisfies everything the qsort call guarantees about line 231 of main.c,
yet differs from the stable order that preserves insertion order on ties,
so stability is not a property of the code. -/
theorem c5_counterexample :
    QsortResult [⟨⟨0,0,1,5⟩,0⟩, ⟨⟨0,0,2,5⟩,1⟩] [⟨⟨0,0,2,5⟩,1⟩, ⟨⟨0,0,1,5⟩,0⟩] ∧
    ([⟨⟨0,0,2,5⟩,1⟩, ⟨⟨0,0,1,5⟩,0⟩] : List Texture) ≠
      [⟨⟨0,0,1,5⟩,0⟩, ⟨⟨0,0,2,5⟩,1⟩] := by
  refine ⟨⟨List.Perm.swap _ _ _, ?_⟩, by decide⟩
  rw [List.pairwise_cons]
  refine ⟨?_, List.pairwise_singleton _ _⟩
  intro u hu
  rcases List.mem_singleton.1 hu with rfl
  decide

/-- C5 amended: a successful pack returns the textures in an order that is
sorted by height descending and whose widths, heights and buffer offsets
form a permutation of those of the input; the relative order of equal
heights is what the representative sort of the model produces and is not
guaranteed by
qsort or std sort. -/
theorem c5_sorted_amended {textures : List Texture} {size expand border : Int}
    {out : List (Texture × Bool)}
    (hok : pack textures size expand border = .ok out) :
    (out.map fun q => stripTex q.1).Perm (textures.map stripTex) ∧
    (out.map fun q => stripTex q.1).Pairwise fun p q => q.2.1 ≤ p.2.1 := by
  rw [pack] at hok
  split_ifs at hok with h1 h2
  simp only [Except.ok.injEq] at hok
  subst hok
  rw [packLoop_strip]
  constructor
  · exact (List.perm_insertionSort heightGe textures).map stripTex
  · have hs : (List.insertionSort heightGe textures).Pairwise heightGe :=
      List.sorted_insertionSort heightGe textures
    rw [sortTextures, List.pairwise_map]
    exact hs.imp fun hab => hab

theorem c5_sorted_amended_witness :
    pack [⟨⟨0,0,8,16⟩,0⟩, ⟨⟨0,0,16,8⟩,1⟩, ⟨⟨0,0,8,8⟩,2⟩] 32 0 0 =
      .ok [(⟨⟨0,0,8,16⟩,0⟩, true), (⟨⟨8,0,16,8⟩,1⟩, true), (⟨⟨24,0,8,8⟩,2⟩, true)] ∧
    (([(⟨⟨0,0,8,16⟩,0⟩, true), (⟨⟨8,0,16,8⟩,1⟩, true), (⟨⟨24,0,8,8⟩,2⟩, true)].map
        fun q => stripTex q.1).Perm
      ([⟨⟨0,0,8,16⟩,0⟩, ⟨⟨0,0,16,8⟩,1⟩, ⟨⟨0,0,8,8⟩,2⟩].map stripTex) ∧
    ([(⟨⟨0,0,8,16⟩,0⟩, true), (⟨⟨8,0,16,8⟩,1⟩, true), (⟨⟨24,0,8,8⟩,2⟩, true)].map
        fun q => stripTex q.1).Pairwise fun p q => q.2.1 ≤ p.2.1) :=
  ⟨by decide, @c5_sorted_amended [⟨⟨0,0,8,16⟩,0⟩, ⟨⟨0,0,16,8⟩,1⟩, ⟨⟨0,0,8,8⟩,2⟩] 32 0 0
    [(⟨⟨0,0,8,16⟩,0⟩, true), (⟨⟨8,0,16,8⟩,1⟩, true), (⟨⟨24,0,8,8⟩,2⟩, true)] (by decide)⟩

theorem maxPaddedW_init_le (padding : Int) :
    ∀ (ts : List Texture) (init : Int),
      init ≤ ts.foldl (fun m t => max m (t.rect.w + padding)) init := by
  intro ts
  induction ts with
  | nil => intro init; simp
  | cons x xs ih => intro init; exact le_trans (le_max_left _ _) (ih _)

theorem maxPaddedH_init_le (padding : Int) :
    ∀ (ts : List Texture) (init : Int),
      init ≤ ts.foldl (fun m t => max m (t.rect.h + padding)) init := by
  intro ts
  induction ts with
  | nil => intro init; simp
  | cons x xs ih => intro init; exact le_trans (le_max_left _ _) (ih _)

theorem le_maxPaddedW {padding : Int} :
    ∀ {ts : List Texture} (init : Int) {t : Texture}, t ∈ ts →
      t.rect.w + padding ≤ ts.foldl (fun m t => max m (t.rect.w + padding)) init := by
  intro ts
  induction ts with
  | nil => intro init t ht; simp at ht
  | cons x xs ih =>
    intro init t ht
    rcases List.mem_cons.1 ht with rfl | ht
    · exact le_trans (le_max_right _ _) (maxPaddedW_init_le padding xs _)
    · exact ih _ ht

theorem le_maxPaddedH {padding : Int} :
    ∀ {ts : List Texture} (init : Int) {t : Texture}, t ∈ ts →
      t.rect.h + padding ≤ ts.foldl (fun m t => max m (t.rect.h + padding)) init := by
  intro ts
  induction ts with
  | nil => intro init t ht; simp at ht
  | cons x xs ih =>
    intro init t ht
    rcases List.mem_cons.1 ht with rfl | ht
    · exact le_trans (le_max_right _ _) (maxPaddedH_init_le padding xs _)
    · exact ih _ ht

theorem maxPaddedW_le {padding size : Int} :
    ∀ {ts : List Texture} {init : Int}, init ≤ size →
      (∀ t ∈ ts, t.rect.w + padding ≤ size) →
      ts.foldl (fun m t => max m (t.rect.w + padding)) init ≤ size := by
  intro ts
  induction ts with
  | nil => intro init hi _; simpa using hi
  | cons x xs ih =>
    intro init hi hall
    exact ih (max_le hi (hall x (List.mem_cons_self x xs)))
      fun t ht => hall t (List.mem_cons_of_mem x ht)

theorem maxPaddedH_le {padding size : Int} :
    ∀ {ts : List Texture} {init : Int}, init ≤ size →
      (∀ t ∈ ts, t.rect.h + padding ≤ size) →
      ts.foldl (fun m t => max m (t.rect.h + padding)) init ≤ size := by
  intro ts
  induction ts with
  | nil => intro init hi _; simpa using hi
  | cons x xs ih =>
    intro init hi hall
    exact ih (max_le hi (hall x (List.mem_cons_self x xs)))
      fun t ht => hall t (List.mem_cons_of_mem x ht)

/-- C6: a texture whose padded width or height exceeds the atlas size makes
pack fail with OversizedTexture; with no oversized texture, a padded area
total exceeding 85 hundredths of the squared size makes it fail with
InsufficientSpace.  Both checks run before the placement pass, so the
error is returned with no position assigned. -/
theorem c6_prechecks (textures : List Texture) (size expand border : Int) :
    ((∃ t ∈ textures, size < t.rect.w + paddingOf expand border ∨
        size < t.rect.h + paddingOf expand border) →
      pack textures size expand border = .error .OversizedTexture) ∧
    (0 ≤ size →
      (∀ t ∈ textures, t.rect.w + paddingOf expand border ≤ size ∧
        t.rect.h + paddingOf expand border ≤ size) →
      size * size * 85 < totalArea (paddingOf expand border) textures * 100 →
      pack textures size expand border = .error .InsufficientSpace) := by
  constructor
  · rintro ⟨t, ht, hlt⟩
    have hc1 : ¬ (maxPaddedW (paddingOf expand border) textures ≤ size ∧
        maxPaddedH (paddingOf expand border) textures ≤ size) := by
      rintro ⟨hW, hH⟩
      rw [maxPaddedW] at hW
      rw [maxPaddedH] at hH
      rcases hlt with hlt | hlt
      · exact absurd (le_trans (le_maxPaddedW 0 ht) hW) (by omega)
      · exact absurd (le_trans (le_maxPaddedH 0 ht) hH) (by omega)
    simp only [pack]
    rw [if_neg hc1]
  · intro hsz hall harea
    have hc1 : maxPaddedW (paddingOf expand border) textures ≤ size ∧
        maxPaddedH (paddingOf expand border) textures ≤ size := by
      constructor
      · exact maxPaddedW_le hsz fun t ht => (hall t ht).1
      · exact maxPaddedH_le hsz fun t ht => (hall t ht).2
    simp only [pack]
    rw [if_pos hc1, if_neg (by omega)]

theorem c6_prechecks_witness :
    pack [⟨⟨0,0,100,100⟩,0⟩] 50 0 0 = .error .OversizedTexture ∧
    pack [⟨⟨0,0,9,9⟩,0⟩, ⟨⟨0,0,5,5⟩,1⟩] 10 0 0 = .error .InsufficientSpace :=
  ⟨(c6_prechecks [⟨⟨0,0,100,100⟩,0⟩] 50 0 0).1
      ⟨⟨⟨0,0,100,100⟩,0⟩, by decide, by decide⟩,
    (c6_prechecks [⟨⟨0,0,9,9⟩,0⟩, ⟨⟨0,0,5,5⟩,1⟩] 10 0 0).2
      (by decide) (by decide) (by decide)⟩

/-- Registration of one source image, blocs__add_texture main.c lines
178-191: the texture records the current buffer offset, its rect starts at
the origin with the image dimensions, and the offset advances by
w times h times 4 bytes. -/
def addTexture (acc : List Texture × Nat) (dims : Nat × Nat) : List Texture × Nat :=
  (acc.1 ++ [⟨⟨0, 0, (dims.1 : Int), (dims.2 : Int)⟩, acc.2⟩],
    acc.2 + dims.1 * dims.2 * 4)

/-- Registration of a whole image list starting from offset 0. -/
def addTextures (dims : List (Nat × Nat)) : List Texture × Nat :=
  dims.foldl addTexture ([], 0)

/-- Closed form of the addTexture fold, used to reason about the assigned
offsets; proven equal to the fold below. -/
def buildTextures (off : Nat) : List (Nat × Nat) → List Texture
  | [] => []
  | d :: ds =>
    ⟨⟨0, 0, (d.1 : Int), (d.2 : Int)⟩, off⟩ :: buildTextures (off + d.1 * d.2 * 4) ds

theorem foldl_addTexture_eq :
    ∀ (dims : List (Nat × Nat)) (acc : List Texture × Nat),
      (dims.foldl addTexture acc).1 = acc.1 ++ buildTextures acc.2 dims := by
  intro dims
  induction dims with
  | nil => intro acc; simp [buildTextures]
  | cons d ds ih =>
    intro acc
    rw [List.foldl_cons, ih]
    simp [addTexture, buildTextures]

theorem addTextures_eq (dims : List (Nat × Nat)) :
    (addTextures dims).1 = buildTextures 0 dims := by
  rw [addTextures, foldl_addTexture_eq]
  simp

theorem length_buildTextures : ∀ (dims : List (Nat × Nat)) (off : Nat),
    (buildTextures off dims).length = dims.length := by
  intro dims
  induction dims with
  | nil => intro off; rfl
  | cons d ds ih => intro off; simp only [buildTextures, List.length_cons, ih]

theorem buildTextures_getD_zero :
    ∀ (dims : List (Nat × Nat)) (off : Nat), 0 < dims.length →
      ((buildTextures off dims).map Texture.bufferIndex).getD 0 0 = off := by
  intro dims off h0
  cases dims with
  | nil => simp at h0
  | cons d ds => rfl

theorem buildTextures_getD_succ :
    ∀ (dims : List (Nat × Nat)) (off i : Nat), i + 1 < dims.length →
      ((buildTextures off dims).map Texture.bufferIndex).getD (i + 1) 0 =
        ((buildTextures off dims).map Texture.bufferIndex).getD i 0 +
          (dims.getD i (0, 0)).1 * (dims.getD i (0, 0)).2 * 4 := by
  intro dims
  induction dims with
  | nil => intro off i hi; simp at hi
  | cons d ds ih =>
    intro off i hi
    cases i with
    | zero =>
      simp only [List.length_cons] at hi
      cases ds with
      | nil => simp at hi
      | cons e es => rfl
    | succ i =>
      simp only [List.length_cons] at hi
      have := ih (off + d.1 * d.2 * 4) i (by omega)
      simpa [buildTextures] using this

/-- C9: the buffer offsets assigned by successive add calls start at 0 and
advance by w times h times 4 bytes each time, partitioning the staging
buffer in insertion order with no gaps or overlaps. -/
theorem c9_buffer_offsets (dims : List (Nat × Nat)) :
    (addTextures dims).1.length = dims.length ∧
    (0 < dims.length →
      ((addTextures dims).1.map Texture.bufferIndex).getD 0 0 = 0) ∧
    ∀ i, i + 1 < dims.length →
      ((addTextures dims).1.map Texture.bufferIndex).getD (i + 1) 0 =
        ((addTextures dims).1.map Texture.bufferIndex).getD i 0 +
          (dims.getD i (0, 0)).1 * (dims.getD i (0, 0)).2 * 4 := by
  rw [addTextures_eq]
  exact ⟨length_buildTextures dims 0,
    buildTextures_getD_zero dims 0,
    fun i hi => buildTextures_getD_succ dims 0 i hi⟩

theorem c9_buffer_offsets_witness :
    (addTextures [(2, 3), (4, 1), (5, 5)]).1.length = 3 ∧
    (0 < 3 →
      ((addTextures [(2, 3), (4, 1), (5, 5)]).1.map Texture.bufferIndex).getD 0 0 = 0) ∧
    (1 < 3 →
      ((addTextures [(2, 3), (4, 1), (5, 5)]).1.map Texture.bufferIndex).getD 1 0 =
        ((addTextures [(2, 3), (4, 1), (5, 5)]).1.map Texture.bufferIndex).getD 0 0 +
          2 * 3 * 4) :=
  ⟨(c9_buffer_offsets [(2, 3), (4, 1), (5, 5)]).1,
    (c9_buffer_offsets [(2, 3), (4, 1), (5, 5)]).2.1,
    fun _ => (c9_buffer_offsets [(2, 3), (4, 1), (5, 5)]).2.2 0 (by decide)⟩

/-- Byte store into a buffer modelled as a function from byte index to
byte value. -/
def store (d : Int → Nat) (i : Int) (v : Nat) : Int → Nat :=
  fun k => if k = i then v else d k

/-- Sequence of byte stores executed left to right. -/
def writeList (d : Int → Nat) : List (Int × Nat) → (Int → Nat)
  | [] => d
  | w :: ws => writeList (store d w.1 w.2) ws

theorem writeList_not_written :
    ∀ {ws : List (Int × Nat)} {d : Int → Nat} {k : Int},
      (∀ p ∈ ws, p.1 ≠ k) → writeList d ws k = d k := by
  intro ws
  induction ws with
  | nil => intro d k _; rfl
  | cons w ws ih =>
    intro d k hno
    rw [writeList, ih fun p hp => hno p (List.mem_cons_of_mem w hp)]
    rw [store, if_neg fun hc => hno w (List.mem_cons_self w ws) hc.symm]

theorem writeList_write_const :
    ∀ {ws : List (Int × Nat)} {d : Int → Nat} {k : Int} {v : Nat},
      (∃ p ∈ ws, p.1 = k) → (∀ p ∈ ws, p.1 = k → p.2 = v) →
      writeList d ws k = v := by
  intro ws
  induction ws with
  | nil => rintro d k v ⟨p, hp, _⟩ _; simp at hp
  | cons w ws ih =>
    intro d k v hex hall
    rw [writeList]
    by_cases htail : ∃ p ∈ ws, p.1 = k
    · exact ih htail fun p hp => hall p (List.mem_cons_of_mem w hp)
    · have hk : w.1 = k := by
        rcases hex with ⟨p, hp, hpk⟩
        rcases List.mem_cons.1 hp with rfl | hp
        · exact hpk
        · exact absurd ⟨p, hp, hpk⟩ htail
      rw [writeList_not_written fun p hp hpk => htail ⟨p, hp, hpk⟩]
      rw [store, if_pos hk.symm]
      exact hall w (List.mem_cons_self w ws) hk

theorem writeList_indep :
    ∀ {ws : List (Int × Nat)} {d1 d2 : Int → Nat} {k : Int},
      (∃ p ∈ ws, p.1 = k) → writeList d1 ws k = writeList d2 ws k := by
  intro ws
  induction ws with
  | nil => rintro d1 d2 k ⟨p, hp, _⟩; simp at hp
  | cons w ws ih =>
    intro d1 d2 k hex
    rw [writeList, writeList]
    by_cases htail : ∃ p ∈ ws, p.1 = k
    · exact ih htail
    · have hk : w.1 = k := by
        rcases hex with ⟨p, hp, hpk⟩
        rcases List.mem_cons.1 hp with rfl | hp
        · exact hpk
        · exact absurd ⟨p, hp, hpk⟩ htail
      rw [writeList_not_written fun p hp hpk => htail ⟨p, hp, hpk⟩,
        writeList_not_written fun p hp hpk => htail ⟨p, hp, hpk⟩]
      rw [store, store, if_pos hk.symm, if_pos hk.symm]

/-- Integer range list from lo up to but excluding hi. -/
def offsets (lo hi : Int) : List Int :=
  (List.range (hi - lo).toNat).map fun i : Nat => lo + (i : Int)

theorem mem_offsets {lo hi a : Int} : a ∈ offsets lo hi ↔ lo ≤ a ∧ a < hi := by
  simp only [offsets, List.mem_map, List.mem_range]
  constructor
  · rintro ⟨i, hi2, rfl⟩
    omega
  · intro h
    exact ⟨(a - lo).toNat, by omega, by omega⟩

/-- The four RGBA channel offsets. -/
def chList : List Int := [0, 1, 2, 3]

theorem mem_chList {c : Int} : c ∈ chList ↔ 0 ≤ c ∧ c < 4 := by
  simp only [chList, List.mem_cons, List.not_mem_nil, or_false]
  omega

/-- Byte index of channel c of the pixel at the given column and row of a
row-major RGBA bitmap of width W. -/
def dstIdx (W col row c : Int) : Int := (col + row * W) * 4 + c

/-- Clamp-to-edge of a pixel offset into the range 0 to lim minus 1. -/
def clampPix (v lim : Int) : Int := if v < 0 then 0 else if v > lim - 1 then lim - 1 else v

/-- Byte stores performed by the edge-expansion blit of one texture,
main.c lines 363-384, in loop order.  The C loop variables x and y step in
multiples of CHANNELS equal 4; they appear here as dx times 4 and dy times
4 with dx and dy the pixel offsets, and the source clamps are written
exactly as in lines 371-376. -/
def blitWrites (buf : Int → Nat) (off W : Int) (r : Rect) (e : Int) : List (Int × Nat) :=
  (offsets (-e) (r.h + e)).flatMap fun dy =>
    (offsets (-e) (r.w + e)).flatMap fun dx =>
      chList.map fun c =>
        (r.x * 4 + dx * 4 + (r.y * 4 + dy * 4) * W + c,
          buf (off +
            (if dx * 4 < 0 then 0
              else if dx * 4 > (r.w - 1) * 4 then (r.w - 1) * 4 else dx * 4) +
            (if dy * 4 < 0 then 0
              else if dy * 4 > (r.h - 1) * 4 then (r.h - 1) * 4 else dy * 4) * r.w + c))

/-- Byte stores performed by blocs__set_pixels, main.c lines 328-344: a
row-by-row copy of w times 4 bytes per row; the byte position inside a row
is written as px times 4 plus c. -/
def setPixelsWrites (buf : Int → Nat) (off W : Int) (r : Rect) : List (Int × Nat) :=
  (offsets 0 r.h).flatMap fun py =>
    (offsets 0 r.w).flatMap fun px =>
      chList.map fun c =>
        ((r.x + (r.y + py) * W) * 4 + px * 4 + c,
          buf (off + (py * r.w) * 4 + px * 4 + c))

/-- Per-texture byte stores of blocs__generate_atlas, main.c lines 356-388:
the expand branch uses the clamped blit, otherwise a plain row copy. -/
def textureWrites (buf : Int → Nat) (W e : Int) (t : Texture) : List (Int × Nat) :=
  if 0 < e then blitWrites buf (t.bufferIndex : Int) W t.rect e
  else setPixelsWrites buf (t.bufferIndex : Int) W t.rect

/-- Compositing pass: blit every texture in order onto the atlas buffer. -/
def generateAtlas (buf : Int → Nat) (W e : Int) : List Texture → (Int → Nat) → (Int → Nat)
  | [], d => d
  | t :: ts, d => generateAtlas buf W e ts (writeList d (textureWrites buf W e t))

/-- Atlas buffer as produced by blocs__clear_pixels: all bytes zero. -/
def zeroAtlas : Int → Nat := fun _ => 0

/-- Pixel region written when compositing a texture with edge expansion e:
the placed rect grown by e on every side. -/
def writeRegion (e : Int) (r : Rect) : Rect :=
  Rect.mk (r.x - e) (r.y - e) (r.w + 2 * e) (r.h + 2 * e)

theorem writeRegion_zero (r : Rect) : writeRegion 0 r = r := by
  cases r
  simp [writeRegion]

/-- Dimension and horizontal bounds a placed texture satisfies inside a
W-wide atlas; these make byte addresses of distinct pixels distinct. -/
def TexOK (W e : Int) (t : Texture) : Prop :=
  1 ≤ t.rect.w ∧ 1 ≤ t.rect.h ∧ 0 ≤ t.rect.x - e ∧ t.rect.x + t.rect.w + e ≤ W

theorem dstIdx_inj {W c1 r1 ch1 c2 r2 ch2 : Int} (hW : 0 < W)
    (hc1 : 0 ≤ c1) (hc1w : c1 < W) (hc2 : 0 ≤ c2) (hc2w : c2 < W)
    (hch1 : 0 ≤ ch1) (hch14 : ch1 < 4) (hch2 : 0 ≤ ch2) (hch24 : ch2 < 4)
    (heq : dstIdx W c1 r1 ch1 = dstIdx W c2 r2 ch2) :
    c1 = c2 ∧ r1 = r2 ∧ ch1 = ch2 := by
  rw [dstIdx, dstIdx] at heq
  obtain ⟨D, hD⟩ : ∃ D : Int, D = (c1 + r1 * W) - (c2 + r2 * W) := ⟨_, rfl⟩
  have h4 : 4 * D = ch2 - ch1 := by rw [hD]; linarith
  have hD0 : D = 0 := by omega
  have hch : ch1 = ch2 := by omega
  have hcr : c1 + r1 * W = c2 + r2 * W := by
    rw [hD0] at hD
    linarith
  obtain ⟨M, hM⟩ : ∃ M : Int, M = r2 - r1 := ⟨_, rfl⟩
  have hcm : c1 - c2 = M * W := by rw [hM, sub_mul]; linarith
  have hM0 : M = 0 := by
    rcases lt_trichotomy M 0 with hm | hm | hm
    · exfalso
      have hM1 : M ≤ -1 := by omega
      have : M * W ≤ -1 * W := mul_le_mul_of_nonneg_right hM1 (le_of_lt hW)
      linarith
    · exact hm
    · exfalso
      have hM1 : 1 ≤ M := by omega
      have : 1 * W ≤ M * W := mul_le_mul_of_nonneg_right hM1 (le_of_lt hW)
      linarith
  have hr : r1 = r2 := by rw [hM] at hM0; linarith
  have hc : c1 = c2 := by rw [hM0, zero_mul] at hcm; omega
  exact ⟨hc, hr, hch⟩

theorem clampByte_eq (v lim : Int) :
    (if v * 4 < 0 then 0 else if v * 4 > (lim - 1) * 4 then (lim - 1) * 4 else v * 4) =
      4 * clampPix v lim := by
  rw [clampPix]
  split_ifs <;> omega

theorem blit_dst_eq (W : Int) (r : Rect) (dx dy c : Int) :
    r.x * 4 + dx * 4 + (r.y * 4 + dy * 4) * W + c = dstIdx W (r.x + dx) (r.y + dy) c := by
  rw [dstIdx]
  ring

theorem blit_src_eq (off : Int) (r : Rect) (dx dy c : Int) :
    off +
      (if dx * 4 < 0 then 0
        else if dx * 4 > (r.w - 1) * 4 then (r.w - 1) * 4 else dx * 4) +
      (if dy * 4 < 0 then 0
        else if dy * 4 > (r.h - 1) * 4 then (r.h - 1) * 4 else dy * 4) * r.w + c =
    off + 4 * clampPix dx r.w + (4 * clampPix dy r.h) * r.w + c := by
  rw [clampByte_eq, clampByte_eq]

theorem setPixels_dst_eq (W : Int) (r : Rect) (px py c : Int) :
    (r.x + (r.y + py) * W) * 4 + px * 4 + c = dstIdx W (r.x + px) (r.y + py) c := by
  rw [dstIdx]
  ring

theorem mem_blitWrites {buf : Int → Nat} {off W : Int} {r : Rect} {e : Int}
    {p : Int × Nat} :
    p ∈ blitWrites buf off W r e ↔
      ∃ dy dx c, (-e ≤ dy ∧ dy < r.h + e) ∧ (-e ≤ dx ∧ dx < r.w + e) ∧
        (0 ≤ c ∧ c < 4) ∧
        p.1 = dstIdx W (r.x + dx) (r.y + dy) c ∧
        p.2 = buf (off + 4 * clampPix dx r.w + (4 * clampPix dy r.h) * r.w + c) := by
  simp only [blitWrites, List.mem_flatMap, List.mem_map, mem_offsets, mem_chList]
  constructor
  · rintro ⟨dy, hdy, dx, hdx, c, hc, rfl⟩
    exact ⟨dy, dx, c, hdy, hdx, hc, blit_dst_eq W r dx dy c,
      congrArg buf (blit_src_eq off r dx dy c)⟩
  · rintro ⟨dy, dx, c, hdy, hdx, hc, h1, h2⟩
    refine ⟨dy, hdy, dx, hdx, c, hc, ?_⟩
    rw [Prod.ext_iff]
    constructor
    · rw [blit_dst_eq W r dx dy c]
      exact h1.symm
    · rw [congrArg buf (blit_src_eq off r dx dy c)]
      exact h2.symm

theorem mem_setPixelsWrites {buf : Int → Nat} {off W : Int} {r : Rect} {p : Int × Nat} :
    p ∈ setPixelsWrites buf off W r ↔
      ∃ py px c, (0 ≤ py ∧ py < r.h) ∧ (0 ≤ px ∧ px < r.w) ∧ (0 ≤ c ∧ c < 4) ∧
        p.1 = dstIdx W (r.x + px) (r.y + py) c ∧
        p.2 = buf (off + (py * r.w) * 4 + px * 4 + c) := by
  simp only [setPixelsWrites, List.mem_flatMap, List.mem_map, mem_offsets, mem_chList]
  constructor
  · rintro ⟨py, hpy, px, hpx, c, hc, rfl⟩
    exact ⟨py, px, c, hpy, hpx, hc, setPixels_dst_eq W r px py c, rfl⟩
  · rintro ⟨py, px, c, hpy, hpx, hc, h1, h2⟩
    refine ⟨py, hpy, px, hpx, c, hc, ?_⟩
    rw [Prod.ext_iff]
    constructor
    · rw [setPixels_dst_eq W r px py c]
      exact h1.symm
    · exact h2.symm

theorem writeList_blit_value {buf : Int → Nat} {off W : Int} {r : Rect} {e : Int}
    {d : Int → Nat} {dx dy c : Int} (hW : 0 < W)
    (hx : 0 ≤ r.x - e) (hxw : r.x + r.w + e ≤ W)
    (hdx : -e ≤ dx) (hdx2 : dx < r.w + e) (hdy : -e ≤ dy) (hdy2 : dy < r.h + e)
    (hc : 0 ≤ c) (hc4 : c < 4) :
    writeList d (blitWrites buf off W r e) (dstIdx W (r.x + dx) (r.y + dy) c) =
      buf (off + 4 * clampPix dx r.w + (4 * clampPix dy r.h) * r.w + c) := by
  apply writeList_write_const
  · exact ⟨(dstIdx W (r.x + dx) (r.y + dy) c,
      buf (off + 4 * clampPix dx r.w + (4 * clampPix dy r.h) * r.w + c)),
      mem_blitWrites.2 ⟨dy, dx, c, ⟨hdy, hdy2⟩, ⟨hdx, hdx2⟩, ⟨hc, hc4⟩, rfl, rfl⟩, rfl⟩
  · intro p hp hpk
    rcases mem_blitWrites.1 hp with ⟨dy2, dx2, c2, hdyr, hdxr, hcr, h1, h2⟩
    have heq : dstIdx W (r.x + dx2) (r.y + dy2) c2 = dstIdx W (r.x + dx) (r.y + dy) c := by
      rw [← h1, hpk]
    obtain ⟨e1, e2, e3⟩ := dstIdx_inj hW (by omega) (by omega) (by omega) (by omega)
      hcr.1 hcr.2 hc hc4 heq
    have hdxeq : dx2 = dx := by omega
    have hdyeq : dy2 = dy := by omega
    subst hdxeq
    subst hdyeq
    subst e3
    exact h2

theorem writeList_setPixels_value {buf : Int → Nat} {off W : Int} {r : Rect}
    {d : Int → Nat} {px py c : Int} (hW : 0 < W)
    (hx : 0 ≤ r.x) (hxw : r.x + r.w ≤ W)
    (hpx : 0 ≤ px) (hpx2 : px < r.w) (hpy : 0 ≤ py) (hpy2 : py < r.h)
    (hc : 0 ≤ c) (hc4 : c < 4) :
    writeList d (setPixelsWrites buf off W r) (dstIdx W (r.x + px) (r.y + py) c) =
      buf (off + (py * r.w) * 4 + px * 4 + c) := by
  apply writeList_write_const
  · exact ⟨(dstIdx W (r.x + px) (r.y + py) c, buf (off + (py * r.w) * 4 + px * 4 + c)),
      mem_setPixelsWrites.2 ⟨py, px, c, ⟨hpy, hpy2⟩, ⟨hpx, hpx2⟩, ⟨hc, hc4⟩, rfl, rfl⟩, rfl⟩
  · intro p hp hpk
    rcases mem_setPixelsWrites.1 hp with ⟨py2, px2, c2, hpyr, hpxr, hcr, h1, h2⟩
    have heq : dstIdx W (r.x + px2) (r.y + py2) c2 = dstIdx W (r.x + px) (r.y + py) c := by
      rw [← h1, hpk]
    obtain ⟨e1, e2, e3⟩ := dstIdx_inj hW (by omega) (by omega) (by omega) (by omega)
      hcr.1 hcr.2 hc hc4 heq
    have hpxeq : px2 = px := by omega
    have hpyeq : py2 = py := by omega
    subst hpxeq
    subst hpyeq
    subst e3
    exact h2

theorem textureWrites_key {buf : Int → Nat} {W e : Int} {t : Texture} {p : Int × Nat}
    (he : 0 ≤ e) (hp : p ∈ textureWrites buf W e t) :
    ∃ col row c, p.1 = dstIdx W col row c ∧ 0 ≤ c ∧ c < 4 ∧
      (writeRegion e t.rect).inside (col, row) := by
  rw [textureWrites] at hp
  split_ifs at hp with hpos
  · rcases mem_blitWrites.1 hp with ⟨dy, dx, c, hdy, hdx, hc, h1, _⟩
    refine ⟨t.rect.x + dx, t.rect.y + dy, c, h1, hc.1, hc.2, ?_⟩
    simp only [writeRegion, Rect.inside]
    omega
  · have he0 : e = 0 := by omega
    subst he0
    rcases mem_setPixelsWrites.1 hp with ⟨py, px, c, hpy, hpx, hc, h1, _⟩
    refine ⟨t.rect.x + px, t.rect.y + py, c, h1, hc.1, hc.2, ?_⟩
    simp only [writeRegion, Rect.inside]
    omega

theorem textureWrites_covers {buf : Int → Nat} {W e : Int} {t : Texture} {col row c : Int}
    (he : 0 ≤ e) (hin : (writeRegion e t.rect).inside (col, row))
    (hc : 0 ≤ c) (hc4 : c < 4) :
    ∃ p ∈ textureWrites buf W e t, p.1 = dstIdx W col row c := by
  simp only [writeRegion, Rect.inside] at hin
  rw [textureWrites]
  have h1 : t.rect.x + (col - t.rect.x) = col := by ring
  have h2 : t.rect.y + (row - t.rect.y) = row := by ring
  split_ifs with hpos
  · refine ⟨(dstIdx W (t.rect.x + (col - t.rect.x)) (t.rect.y + (row - t.rect.y)) c,
      buf ((t.bufferIndex : Int) + 4 * clampPix (col - t.rect.x) t.rect.w +
        (4 * clampPix (row - t.rect.y) t.rect.h) * t.rect.w + c)),
      mem_blitWrites.2 ⟨row - t.rect.y, col - t.rect.x, c,
        ⟨by omega, by omega⟩, ⟨by omega, by omega⟩, ⟨hc, hc4⟩, rfl, rfl⟩, ?_⟩
    rw [h1, h2]
  · have he0 : e = 0 := by omega
    refine ⟨(dstIdx W (t.rect.x + (col - t.rect.x)) (t.rect.y + (row - t.rect.y)) c,
      buf ((t.bufferIndex : Int) + ((row - t.rect.y) * t.rect.w) * 4 +
        (col - t.rect.x) * 4 + c)),
      mem_setPixelsWrites.2 ⟨row - t.rect.y, col - t.rect.x, c,
        ⟨by omega, by omega⟩, ⟨by omega, by omega⟩, ⟨hc, hc4⟩, rfl, rfl⟩, ?_⟩
    rw [h1, h2]

theorem generateAtlas_untouched {buf : Int → Nat} {W e col row c : Int} :
    ∀ {ts : List Texture} {d : Int → Nat},
      0 ≤ e → 0 < W →
      (∀ t ∈ ts, TexOK W e t) →
      (∀ t ∈ ts, ¬ (writeRegion e t.rect).inside (col, row)) →
      0 ≤ col → col < W → 0 ≤ c → c < 4 →
      generateAtlas buf W e ts d (dstIdx W col row c) = d (dstIdx W col row c) := by
  intro ts
  induction ts with
  | nil => intro d _ _ _ _ _ _ _ _; rfl
  | cons t ts ih =>
    intro d he hW hok hout hcol hcolW hc hc4
    rw [generateAtlas]
    rw [ih he hW (fun v hv => hok v (List.mem_cons_of_mem t hv))
      (fun v hv => hout v (List.mem_cons_of_mem t hv)) hcol hcolW hc hc4]
    apply writeList_not_written
    intro p hp hpk
    rcases textureWrites_key he hp with ⟨col2, row2, c2, hkey, hc2, hc24, hin⟩
    have hok2 := hok t (List.mem_cons_self t ts)
    have hcol2 : 0 ≤ col2 ∧ col2 < W := by
      simp only [writeRegion, Rect.inside] at hin
      rcases hok2 with ⟨_, _, hx, hxw⟩
      omega
    obtain ⟨e1, e2, _⟩ := dstIdx_inj hW hcol2.1 hcol2.2 hcol hcolW hc2 hc24 hc hc4
      (hkey.symm.trans hpk)
    exact hout t (List.mem_cons_self t ts) (e1 ▸ e2 ▸ hin)

theorem generateAtlas_isolates {buf : Int → Nat} {W e : Int} :
    ∀ {ts : List Texture} {d : Int → Nat} {t : Texture},
      t ∈ ts → 0 ≤ e → 0 < W →
      (∀ u ∈ ts, TexOK W e u) →
      ts.Pairwise (fun a b => ¬ (writeRegion e a.rect).overlaps (writeRegion e b.rect)) →
      ∀ col row c, (writeRegion e t.rect).inside (col, row) → 0 ≤ c → c < 4 →
        generateAtlas buf W e ts d (dstIdx W col row c) =
          writeList d (textureWrites buf W e t) (dstIdx W col row c) := by
  intro ts
  induction ts with
  | nil => intro d t ht; simp at ht
  | cons u ts ih =>
    intro d t ht he hW hok hdisj col row c hin hc hc4
    have hcolb : 0 ≤ col ∧ col < W := by
      have hok2 := hok t ht
      simp only [writeRegion, Rect.inside] at hin
      rcases hok2 with ⟨_, _, hx, hxw⟩
      omega
    rw [generateAtlas]
    rcases List.mem_cons.1 ht with rfl | ht2
    · have hnot : ∀ v ∈ ts, ¬ (writeRegion e v.rect).inside (col, row) := by
        intro v hv hvin
        exact (List.pairwise_cons.1 hdisj).1 v hv
          ((Rect.overlaps_iff _ _).2 ⟨(col, row), hin, hvin⟩)
      rw [generateAtlas_untouched he hW (fun v hv => hok v (List.mem_cons_of_mem t hv))
        hnot hcolb.1 hcolb.2 hc hc4]
    · rw [ih ht2 he hW (fun v hv => hok v (List.mem_cons_of_mem u hv))
        (List.pairwise_cons.1 hdisj).2 col row c hin hc hc4]
      exact writeList_indep (textureWrites_covers he hin hc hc4)

/-- C4: with positive expand, after compositing a list of textures whose
write regions are pairwise disjoint and lie inside the atlas, every byte
the blit wrote for a texture at pixel offset dx, dy equals the source
byte of that texture at the clamped coordinates clampPix dx w, clampPix dy h; with
dx equal minus k for 1 at most k at most e and 0 at most dy below h this
is the left margin replicating column 0, and the right, top, bottom and
corner margins are the other instances of the same clamp law. -/
theorem c4_edge_expansion {buf : Int → Nat} {W e : Int} {ts : List Texture}
    {t : Texture} {d : Int → Nat} {dx dy c : Int}
    (ht : t ∈ ts) (he : 0 < e) (hW : 0 < W)
    (hok : ∀ u ∈ ts, TexOK W e u)
    (hdisj : ts.Pairwise fun a b =>
      ¬ (writeRegion e a.rect).overlaps (writeRegion e b.rect))
    (hdx : -e ≤ dx) (hdx2 : dx < t.rect.w + e)
    (hdy : -e ≤ dy) (hdy2 : dy < t.rect.h + e)
    (hc : 0 ≤ c) (hc4 : c < 4) :
    generateAtlas buf W e ts d (dstIdx W (t.rect.x + dx) (t.rect.y + dy) c) =
      buf ((t.bufferIndex : Int) + 4 * clampPix dx t.rect.w +
        (4 * clampPix dy t.rect.h) * t.rect.w + c) := by
  rw [generateAtlas_isolates ht (le_of_lt he) hW hok hdisj (t.rect.x + dx) (t.rect.y + dy) c
    (by simp only [writeRegion, Rect.inside]; omega) hc hc4]
  rw [textureWrites, if_pos he]
  have hok2 := hok t ht
  exact writeList_blit_value hW hok2.2.2.1 hok2.2.2.2 hdx hdx2 hdy hdy2 hc hc4

/-- Sample staging buffer used by the compositing witnesses. -/
def demoBuf : Int → Nat := fun i => i.toNat

theorem c4_edge_expansion_witness :
    ((⟨⟨2,2,3,3⟩,0⟩ : Texture) ∈ ([⟨⟨2,2,3,3⟩,0⟩] : List Texture)) ∧ (0:Int) < 1 ∧
    generateAtlas demoBuf 12 1 [⟨⟨2,2,3,3⟩,0⟩] zeroAtlas (dstIdx 12 (2 + -1) (2 + 0) 0) =
      demoBuf ((0:Int) + 4 * clampPix (-1) 3 + (4 * clampPix 0 3) * 3 + 0) :=
  ⟨by decide, by decide,
    @c4_edge_expansion demoBuf 12 1 [⟨⟨2,2,3,3⟩,0⟩] ⟨⟨2,2,3,3⟩,0⟩ zeroAtlas (-1) 0 0
      (by decide) (by decide) (by decide)
      (by
        intro u hu
        rcases List.mem_singleton.1 hu with rfl
        exact ⟨by decide, by decide, by decide, by decide⟩)
      (List.pairwise_singleton _ _)
      (by decide) (by decide) (by decide) (by decide) (by decide) (by decide)⟩

/-- C8: with expand zero, compositing over disjoint in-bounds rects makes
every atlas byte inside the rect of a texture a direct row-major copy of
the staging buffer at the offset of that texture, and leaves every byte of a pixel
covered by no rect at its initial zero. -/
theorem c8_direct_copy_and_zero {buf : Int → Nat} {W : Int} {ts : List Texture}
    (hW : 0 < W) (hok : ∀ u ∈ ts, TexOK W 0 u)
    (hdisj : ts.Pairwise fun a b => ¬ a.rect.overlaps b.rect) :
    (∀ t ∈ ts, ∀ px py c, 0 ≤ px → px < t.rect.w → 0 ≤ py → py < t.rect.h →
      0 ≤ c → c < 4 →
      generateAtlas buf W 0 ts zeroAtlas (dstIdx W (t.rect.x + px) (t.rect.y + py) c) =
        buf ((t.bufferIndex : Int) + (py * t.rect.w) * 4 + px * 4 + c)) ∧
    (∀ col row c, 0 ≤ col → col < W → 0 ≤ c → c < 4 →
      (∀ t ∈ ts, ¬ t.rect.inside (col, row)) →
      generateAtlas buf W 0 ts zeroAtlas (dstIdx W col row c) = 0) := by
  have hdisj2 : ts.Pairwise fun a b =>
      ¬ (writeRegion 0 a.rect).overlaps (writeRegion 0 b.rect) := by
    refine hdisj.imp ?_
    intro a b hab
    rw [writeRegion_zero, writeRegion_zero]
    exact hab
  constructor
  · intro t ht px py c hpx hpx2 hpy hpy2 hc hc4
    obtain ⟨hw1, hh1, hx1, hx2⟩ := hok t ht
    rw [generateAtlas_isolates ht le_rfl hW hok hdisj2 (t.rect.x + px) (t.rect.y + py) c
      (by rw [writeRegion_zero]; simp only [Rect.inside]; omega) hc hc4]
    rw [textureWrites, if_neg (by omega)]
    exact writeList_setPixels_value hW (by omega) (by omega) hpx hpx2 hpy hpy2 hc hc4
  · intro col row c hcol hcolW hc hc4 hout
    rw [generateAtlas_untouched le_rfl hW hok
      (fun t ht hin => hout t ht (by rwa [writeRegion_zero] at hin)) hcol hcolW hc hc4]
    rfl

theorem c8_direct_copy_and_zero_witness :
    generateAtlas demoBuf 8 0 [⟨⟨1,1,2,2⟩,0⟩] zeroAtlas (dstIdx 8 (1 + 0) (1 + 0) 0) =
      demoBuf ((0:Int) + (0 * 2) * 4 + 0 * 4 + 0) ∧
    generateAtlas demoBuf 8 0 [⟨⟨1,1,2,2⟩,0⟩] zeroAtlas (dstIdx 8 0 0 0) = 0 :=
  ⟨(@c8_direct_copy_and_zero demoBuf 8 [⟨⟨1,1,2,2⟩,0⟩] (by decide)
      (by
        intro u hu
        rcases List.mem_singleton.1 hu with rfl
        exact ⟨by decide, by decide, by decide, by decide⟩)
      (List.pairwise_singleton _ _)).1
      ⟨⟨1,1,2,2⟩,0⟩ (by decide) 0 0 0
      (by decide) (by decide) (by decide) (by decide) (by decide) (by decide),
    (@c8_direct_copy_and_zero demoBuf 8 [⟨⟨1,1,2,2⟩,0⟩] (by decide)
      (by
        intro u hu
        rcases List.mem_singleton.1 hu with rfl
        exact ⟨by decide, by decide, by decide, by decide⟩)
      (List.pairwise_singleton _ _)).2
      0 0 0 (by decide) (by decide) (by decide) (by decide)
      (by
        intro u hu
        rcases List.mem_singleton.1 hu with rfl
        decide)⟩

end Blocs
